import Mathlib

/-!
# Verification of the Reversi board core (`lib/board.js`)

Shallow embedding of the Board component: the 8×8 grid of optional colored
pieces, the position queries, the recursive flip-scan `_positionsToFlip`,
move validation and `placePiece`.  JavaScript exceptions are modelled with
`Except String`; in-place grid mutation is modelled by functions returning
the new `Board`.  A piece is identified by the grid position that owns it
(each cell owns at most one piece and pieces are never shared between
cells), so the accumulator of the flip-scan holds positions.

The recursion in `_positionsToFlip` has no structural measure in the
source; it is embedded with explicit fuel (`positionsToFlipFuel`), and the
fuel-independence theorems below show that fuel 8 already computes the
fixed point for every direction in the direction table.
-/

namespace Reversi

/-- Modelled from the spec: the `Piece` class (file `lib/piece.js` is required
by `lib/board.js` but is not among the sources).  Per the spec a piece is a
token holding one of the two color tags "white" and "black", and a flip
toggles the color in place. -/
structure Piece where
  color : String
deriving Repr, DecidableEq

/-- Modelled from the spec: «toggling a placed piece's color from one
player's color to the other's». -/
def Piece.flip (p : Piece) : Piece :=
  if p.color = "white" then ⟨"black"⟩ else ⟨"white"⟩

/-- A coordinate pair `[row, col]`.  JavaScript numbers that arise as
positions in this program are integers. -/
abbrev Pos := Int × Int

/-- The grid: an array of rows, each an array of nullable pieces. -/
abbrev Grid := List (List (Option Piece))

/-- `_makeGrid`: 8×8 grid, white at [3,3] and [4,4], black at [3,4] and
[4,3], everything else `null`. -/
def makeGrid : Grid :=
  [ [none, none, none, none, none, none, none, none],
    [none, none, none, none, none, none, none, none],
    [none, none, none, none, none, none, none, none],
    [none, none, none, some ⟨"white"⟩, some ⟨"black"⟩, none, none, none],
    [none, none, none, some ⟨"black"⟩, some ⟨"white"⟩, none, none, none],
    [none, none, none, none, none, none, none, none],
    [none, none, none, none, none, none, none, none],
    [none, none, none, none, none, none, none, none] ]

/-- The Board: owns the grid. -/
structure Board where
  grid : Grid
deriving Repr, DecidableEq

/-- `new Board()`: a board with the starting grid. -/
def Board.init : Board := ⟨makeGrid⟩

/-- `Board.DIRS`: the table of the 8 direction vectors, in source order. -/
def Board.DIRS : List Pos :=
  [ ((0:ℤ),  (1:ℤ)), ((1:ℤ),  (1:ℤ)), ((1:ℤ),  (0:ℤ)),
    ((1:ℤ), (-1:ℤ)), ((0:ℤ), (-1:ℤ)), ((-1:ℤ), (-1:ℤ)),
    ((-1:ℤ), (0:ℤ)), ((-1:ℤ), (1:ℤ)) ]

/-- `isValidPos`: both coordinates lie in [0,7].  (The source method reads
only its argument, never the grid.) -/
def Board.isValidPos (pos : Pos) : Bool :=
  pos.1 ≥ 0 && pos.1 ≤ 7 && pos.2 ≥ 0 && pos.2 ≤ 7

/-- Reading `this.grid[row][col]`.  A negative index or an index past the
end of an array yields `undefined` in JavaScript; both are `none` here. -/
def Board.cell (b : Board) (pos : Pos) : Option Piece :=
  if 0 ≤ pos.1 ∧ 0 ≤ pos.2 then
    (((b.grid.get? pos.1.toNat).getD []).get? pos.2.toNat).getD none
  else none

/-- `getPiece`: the piece at `pos`, throwing `"Not valid pos!"` when the
position is not valid. -/
def Board.getPiece (b : Board) (pos : Pos) : Except String (Option Piece) :=
  if !(Board.isValidPos pos) then Except.error "Not valid pos!"
  else Except.ok (b.cell pos)

/-- `isMine`: compares the color of the piece at `pos` with `color`.  The
call `this.getPiece(pos)` is NOT guarded: on an invalid position its error
propagates out of `isMine`. -/
def Board.isMine (b : Board) (pos : Pos) (color : String) : Except String Bool :=
  match b.getPiece pos with
  | Except.error e => Except.error e
  | Except.ok none => Except.ok false
  | Except.ok (some p) => Except.ok (p.color == color)

/-- `isOccupied`: whether the cell holds a piece; inherits `getPiece`'s
failure on an invalid position. -/
def Board.isOccupied (b : Board) (pos : Pos) : Except String Bool :=
  match b.getPiece pos with
  | Except.error e => Except.error e
  | Except.ok p => Except.ok p.isSome

/-- The value `isMine` computes at a valid position (where `getPiece`
cannot fail): the cell holds a piece of color `color`. -/
def Board.isMineAt (b : Board) (pos : Pos) (color : String) : Bool :=
  match b.cell pos with
  | none => false
  | some p => p.color == color

/-- The value `isOccupied` computes at a valid position. -/
def Board.isOccupiedAt (b : Board) (pos : Pos) : Bool :=
  (b.cell pos).isSome

/-- At a valid position `isMine` returns `isMineAt` without failing. -/
theorem isMine_ok (b : Board) (pos : Pos) (color : String)
    (h : Board.isValidPos pos = true) :
    b.isMine pos color = Except.ok (b.isMineAt pos color) := by
  unfold Board.isMine Board.getPiece Board.isMineAt
  rw [h]
  cases b.cell pos <;> rfl

/-- At a valid position `isOccupied` returns `isOccupiedAt` without
failing. -/
theorem isOccupied_ok (b : Board) (pos : Pos)
    (h : Board.isValidPos pos = true) :
    b.isOccupied pos = Except.ok (b.isOccupiedAt pos) := by
  unfold Board.isOccupied Board.getPiece Board.isOccupiedAt
  rw [h]
  rfl

/-- `_positionsToFlip`, with explicit fuel for the recursion.  Every call
the source makes is guarded by `isValidPos`, so the `isMine` and
`isOccupied` reads cannot fail and are embedded by `isMineAt` and
`isOccupiedAt`.  Exhausted fuel returns `none`; the stability theorems
below show fuel 8 suffices for every direction of `Board.DIRS`. -/
def positionsToFlipFuel (b : Board) :
    Nat → Pos → String → Pos → List Pos → Option (List Pos)
  | 0, _, _, _, _ => none
  | fuel + 1, pos, color, dir, piecesToFlip =>
    if !(Board.isValidPos pos) then none
    else if b.isMineAt pos color then
      (if piecesToFlip = [] then none else some piecesToFlip)
    else if !(b.isOccupiedAt pos) then none
    else
      positionsToFlipFuel b fuel (pos.1 + dir.1, pos.2 + dir.2) color dir
        (piecesToFlip ++ [pos])

/-- `_positionsToFlip` proper: fuel 8 computes the fixed point (see the
stability theorems). -/
def positionsToFlip (b : Board) (pos : Pos) (color : String) (dir : Pos)
    (piecesToFlip : List Pos) : Option (List Pos) :=
  positionsToFlipFuel b 8 pos color dir piecesToFlip

/-- `validMove`: on-board, unoccupied, and some direction's scan starting
one step beyond `pos` returns a non-null list.  The source's `forEach`
setting a `valid` flag is a left fold over the direction table. -/
def Board.validMove (b : Board) (pos : Pos) (color : String) : Bool :=
  if !(Board.isValidPos pos) then false
  else if b.isOccupiedAt pos then false
  else
    Board.DIRS.foldl (fun valid dir =>
      valid ||
        (positionsToFlip b (pos.1 + dir.1, pos.2 + dir.2) color dir []).isSome)
      false

/-- `validMoves`: the double loop over rows 0..7 and columns 0..7 pushing
every valid position. -/
def Board.validMoves (b : Board) (color : String) : List Pos :=
  (List.range 8).foldl (fun moves (i : ℕ) =>
    (List.range 8).foldl (fun moves (j : ℕ) =>
      if b.validMove ((i : ℤ), (j : ℤ)) color then moves ++ [((i : ℤ), (j : ℤ))]
      else moves) moves) []

/-- `hasMove`: `validMoves(color).length !== 0`. -/
def Board.hasMove (b : Board) (color : String) : Bool :=
  (b.validMoves color).length != 0

/-- `isOver`: neither white nor black has a move. -/
def Board.isOver (b : Board) : Bool :=
  !(b.hasMove "white") && !(b.hasMove "black")

/-- `this.grid[row][col] = v`: out-of-range writes leave the grid
unchanged (`List.set` is the identity past the end of the list). -/
def Board.setCell (b : Board) (pos : Pos) (v : Option Piece) : Board :=
  ⟨b.grid.set pos.1.toNat
    (((b.grid.get? pos.1.toNat).getD []).set pos.2.toNat v)⟩

/-- `piece.flip()` for the piece owned by cell `q`: toggles its color in
place.  A cell that owns no piece is left unchanged. -/
def Board.flipAt (b : Board) (q : Pos) : Board :=
  match b.cell q with
  | some p => b.setCell q (some p.flip)
  | none => b

/-- The combined flip list of `placePiece`: the `forEach` over
`Board.DIRS` concatenating every non-null `_positionsToFlip` result,
starting one step beyond `pos` in each direction. -/
def Board.flipPositions (b : Board) (pos : Pos) (color : String) : List Pos :=
  Board.DIRS.foldl (fun pieces dir =>
    match positionsToFlip b (pos.1 + dir.1, pos.2 + dir.2) color dir [] with
    | some l => pieces ++ l
    | none => pieces) []

/-- `placePiece`: throws `'Invalid Move'` when `validMove` fails (before
any write); otherwise writes a new piece of `color` at `pos`, collects the
flip lists of all 8 directions, then flips every collected piece. -/
def Board.placePiece (b : Board) (pos : Pos) (color : String) :
    Except String Unit × Board :=
  if !(b.validMove pos color) then (Except.error "Invalid Move", b)
  else
    let b1 := b.setCell pos (some ⟨color⟩)
    (Except.ok (), (b1.flipPositions pos color).foldl Board.flipAt b1)

/-- Well-formed grid: 8 rows of 8 cells (the C8 invariant). -/
def Board.Wf (b : Board) : Prop :=
  b.grid.length = 8 ∧ ∀ row ∈ b.grid, row.length = 8

instance (b : Board) : Decidable b.Wf := by
  unfold Board.Wf; infer_instance

/-- All 64 positions in row-major order. -/
def allPositions : List Pos :=
  (List.range 8).flatMap fun i : ℕ =>
    (List.range 8).map fun j : ℕ => ((i : ℤ), (j : ℤ))

/-! ## Basic lemmas about the flip-scan -/

/-- Unfolding the scan at zero fuel. -/
theorem ptf_zero (b : Board) (pos : Pos) (color : String) (dir : Pos)
    (acc : List Pos) : positionsToFlipFuel b 0 pos color dir acc = none := rfl

/-- Unfolding the scan at positive fuel. -/
theorem ptf_succ (b : Board) (f : Nat) (pos : Pos) (color : String) (dir : Pos)
    (acc : List Pos) :
    positionsToFlipFuel b (f + 1) pos color dir acc =
      if !(Board.isValidPos pos) then none
      else if b.isMineAt pos color then (if acc = [] then none else some acc)
      else if !(b.isOccupiedAt pos) then none
      else positionsToFlipFuel b f (pos.1 + dir.1, pos.2 + dir.2) color dir
        (acc ++ [pos]) := rfl

/-- Off the board the scan returns `none` at any fuel. -/
theorem ptf_invalid (b : Board) (f : Nat) (pos : Pos) (color : String)
    (dir : Pos) (acc : List Pos) (hv : Board.isValidPos pos = false) :
    positionsToFlipFuel b f pos color dir acc = none := by
  cases f with
  | zero => rfl
  | succ f => rw [ptf_succ, hv]; rfl

/-- A non-null scan result is never the empty list. -/
theorem ptf_some_ne_nil (b : Board) (color : String) (dir : Pos) :
    ∀ f pos acc l, positionsToFlipFuel b f pos color dir acc = some l →
      l ≠ [] := by
  intro f
  induction f with
  | zero => intro pos acc l h; rw [ptf_zero] at h; exact absurd h (by simp)
  | succ f ih =>
    intro pos acc l h
    rw [ptf_succ] at h
    cases hv : Board.isValidPos pos with
    | false => rw [hv] at h; exact absurd h (by simp)
    | true =>
      rw [hv] at h
      simp only [Bool.not_true, Bool.false_eq_true, if_false] at h
      cases hm : b.isMineAt pos color with
      | true =>
        rw [hm] at h
        simp only [if_true] at h
        by_cases ha : acc = []
        · rw [if_pos ha] at h; exact absurd h (by simp)
        · rw [if_neg ha] at h
          cases h; exact ha
      | false =>
        rw [hm] at h
        simp only [Bool.false_eq_true, if_false] at h
        cases ho : b.isOccupiedAt pos with
        | false => rw [ho] at h; exact absurd h (by simp)
        | true =>
          rw [ho] at h
          simp only [Bool.not_true, Bool.false_eq_true, if_false] at h
          exact ih _ _ _ h

/-- Every element of a non-null scan result is either one of the seed
accumulator's entries or an occupied cell holding an opposite-color
piece. -/
theorem ptf_mem (b : Board) (color : String) (dir : Pos) :
    ∀ f pos acc l, positionsToFlipFuel b f pos color dir acc = some l →
      ∀ q ∈ l, q ∈ acc ∨
        (b.isOccupiedAt q = true ∧ b.isMineAt q color = false) := by
  intro f
  induction f with
  | zero => intro pos acc l h; rw [ptf_zero] at h; exact absurd h (by simp)
  | succ f ih =>
    intro pos acc l h q hq
    rw [ptf_succ] at h
    cases hv : Board.isValidPos pos with
    | false => rw [hv] at h; exact absurd h (by simp)
    | true =>
      rw [hv] at h
      simp only [Bool.not_true, Bool.false_eq_true, if_false] at h
      cases hm : b.isMineAt pos color with
      | true =>
        rw [hm] at h
        simp only [if_true] at h
        by_cases ha : acc = []
        · rw [if_pos ha] at h; exact absurd h (by simp)
        · rw [if_neg ha] at h
          cases h
          exact Or.inl hq
      | false =>
        rw [hm] at h
        simp only [Bool.false_eq_true, if_false] at h
        cases ho : b.isOccupiedAt pos with
        | false => rw [ho] at h; exact absurd h (by simp)
        | true =>
          rw [ho] at h
          simp only [Bool.not_true, Bool.false_eq_true, if_false] at h
          rcases ih _ _ _ h q hq with hacc | hprop
          · rcases List.mem_append.mp hacc with h1 | h1
            · exact Or.inl h1
            · rcases List.mem_singleton.mp h1 with rfl
              exact Or.inr ⟨ho, hm⟩
          · exact Or.inr hprop

/-- A non-null scan result extends the seed accumulator with the
consecutive ray positions `pos`, `pos + dir`, `pos + 2·dir`, …. -/
theorem ptf_shape (b : Board) (color : String) (dir : Pos) :
    ∀ f pos acc l, positionsToFlipFuel b f pos color dir acc = some l →
      ∃ n, l = acc ++ (List.range n).map
        (fun i : ℕ => (pos.1 + (i : ℤ) * dir.1, pos.2 + (i : ℤ) * dir.2)) := by
  intro f
  induction f with
  | zero => intro pos acc l h; rw [ptf_zero] at h; exact absurd h (by simp)
  | succ f ih =>
    intro pos acc l h
    rw [ptf_succ] at h
    cases hv : Board.isValidPos pos with
    | false => rw [hv] at h; exact absurd h (by simp)
    | true =>
      rw [hv] at h
      simp only [Bool.not_true, Bool.false_eq_true, if_false] at h
      cases hm : b.isMineAt pos color with
      | true =>
        rw [hm] at h
        simp only [if_true] at h
        by_cases ha : acc = []
        · rw [if_pos ha] at h; exact absurd h (by simp)
        · rw [if_neg ha] at h
          cases h
          exact ⟨0, by simp⟩
      | false =>
        rw [hm] at h
        simp only [Bool.false_eq_true, if_false] at h
        cases ho : b.isOccupiedAt pos with
        | false => rw [ho] at h; exact absurd h (by simp)
        | true =>
          rw [ho] at h
          simp only [Bool.not_true, Bool.false_eq_true, if_false] at h
          obtain ⟨n, hn⟩ := ih _ _ _ h
          refine ⟨n + 1, ?_⟩
          rw [hn, List.range_succ_eq_map, List.map_cons, List.map_map]
          simp only [Nat.cast_zero, zero_mul, add_zero, Prod.mk.eta]
          rw [List.append_assoc, List.singleton_append]
          congr 2
          apply List.map_congr_left
          intro i _
          simp only [Function.comp_apply, Nat.succ_eq_add_one, Prod.mk.injEq]
          push_cast
          constructor <;> ring

/-! ## Termination of the flip-scan: fuel stability -/

/-- Unpacking the Boolean position-validity check. -/
theorem isValidPos_iff (pos : Pos) :
    Board.isValidPos pos = true ↔
      0 ≤ pos.1 ∧ pos.1 ≤ 7 ∧ 0 ≤ pos.2 ∧ pos.2 ≤ 7 := by
  unfold Board.isValidPos
  simp only [Bool.and_eq_true, decide_eq_true_eq, ge_iff_le]
  tauto

/-- How many positions of the ray `pos`, `pos + dir`, `pos + 2·dir`, …
still have the moving coordinate inside [0,7]: a bound on the remaining
recursion depth of the scan. -/
def stepsLeft (dir pos : Pos) : Nat :=
  if dir.1 = 1 then (8 - pos.1).toNat
  else if dir.1 = -1 then (pos.1 + 1).toNat
  else if dir.2 = 1 then (8 - pos.2).toNat
  else (pos.2 + 1).toNat

/-- On-board positions have between 1 and 8 ray steps left. -/
theorem stepsLeft_of_valid (dir pos : Pos)
    (h : Board.isValidPos pos = true) :
    1 ≤ stepsLeft dir pos ∧ stepsLeft dir pos ≤ 8 := by
  obtain ⟨h1, h2, h3, h4⟩ := (isValidPos_iff pos).mp h
  unfold stepsLeft
  split_ifs <;> omega

/-- Moving one step along a table direction decrements the measure. -/
theorem stepsLeft_step (dir pos : Pos) (hd : dir ∈ Board.DIRS)
    (h : Board.isValidPos pos = true) :
    stepsLeft dir (pos.1 + dir.1, pos.2 + dir.2) = stepsLeft dir pos - 1 := by
  obtain ⟨h1, h2, h3, h4⟩ := (isValidPos_iff pos).mp h
  simp only [Board.DIRS, List.mem_cons, List.not_mem_nil, or_false] at hd
  rcases hd with rfl | rfl | rfl | rfl | rfl | rfl | rfl | rfl <;>
    simp only [stepsLeft] <;> norm_num <;> omega

/-- The scan's value is independent of the fuel once the fuel covers the
remaining ray length. -/
theorem ptf_stable_aux (b : Board) (color : String) (dir : Pos)
    (hd : dir ∈ Board.DIRS) :
    ∀ n pos acc f1 f2, stepsLeft dir pos ≤ n → n ≤ f1 → n ≤ f2 →
      positionsToFlipFuel b f1 pos color dir acc =
        positionsToFlipFuel b f2 pos color dir acc := by
  intro n
  induction n with
  | zero =>
    intro pos acc f1 f2 hs _ _
    have hv : Board.isValidPos pos = false := by
      cases hv : Board.isValidPos pos with
      | false => rfl
      | true => have := stepsLeft_of_valid dir pos hv; omega
    rw [ptf_invalid _ _ _ _ _ _ hv, ptf_invalid _ _ _ _ _ _ hv]
  | succ n ih =>
    intro pos acc f1 f2 hs h1 h2
    cases hv : Board.isValidPos pos with
    | false => rw [ptf_invalid _ _ _ _ _ _ hv, ptf_invalid _ _ _ _ _ _ hv]
    | true =>
      obtain ⟨f1', rfl⟩ : ∃ k, f1 = k + 1 := ⟨f1 - 1, by omega⟩
      obtain ⟨f2', rfl⟩ : ∃ k, f2 = k + 1 := ⟨f2 - 1, by omega⟩
      rw [ptf_succ, ptf_succ, hv]
      simp only [Bool.not_true, Bool.false_eq_true, if_false]
      cases hm : b.isMineAt pos color with
      | true => rfl
      | false =>
        simp only [Bool.false_eq_true, if_false]
        cases ho : b.isOccupiedAt pos with
        | false => rfl
        | true =>
          simp only [Bool.not_true, Bool.false_eq_true, if_false]
          apply ih
          · rw [stepsLeft_step dir pos hd hv]
            omega
          · omega
          · omega

/-- For a table direction, any fuel of at least 8 computes
`positionsToFlip`: the source recursion terminates with this value. -/
theorem ptf_stable (b : Board) (color : String) (dir : Pos) (pos : Pos)
    (acc : List Pos) (f : Nat) (hd : dir ∈ Board.DIRS) (hf : 8 ≤ f) :
    positionsToFlipFuel b f pos color dir acc =
      positionsToFlip b pos color dir acc := by
  cases hv : Board.isValidPos pos with
  | false =>
    rw [ptf_invalid _ _ _ _ _ _ hv]
    rw [positionsToFlip, ptf_invalid _ _ _ _ _ _ hv]
  | true =>
    have hb := stepsLeft_of_valid dir pos hv
    exact ptf_stable_aux b color dir hd 8 pos acc f 8 (by omega) hf le_rfl

/-- Bound on the size of a non-null scan result: the accumulator grows by
fewer than `stepsLeft` entries and the start of the run is on-board. -/
theorem ptf_length (b : Board) (color : String) (dir : Pos)
    (hd : dir ∈ Board.DIRS) :
    ∀ f pos acc l, positionsToFlipFuel b f pos color dir acc = some l →
      Board.isValidPos pos = true ∧
        l.length + 1 ≤ acc.length + stepsLeft dir pos := by
  intro f
  induction f with
  | zero => intro pos acc l h; rw [ptf_zero] at h; exact absurd h (by simp)
  | succ f ih =>
    intro pos acc l h
    rw [ptf_succ] at h
    cases hv : Board.isValidPos pos with
    | false => rw [hv] at h; exact absurd h (by simp)
    | true =>
      rw [hv] at h
      simp only [Bool.not_true, Bool.false_eq_true, if_false] at h
      have hsl := stepsLeft_of_valid dir pos hv
      refine ⟨rfl, ?_⟩
      cases hm : b.isMineAt pos color with
      | true =>
        rw [hm] at h
        simp only [if_true] at h
        by_cases ha : acc = []
        · rw [if_pos ha] at h; exact absurd h (by simp)
        · rw [if_neg ha] at h
          cases h
          omega
      | false =>
        rw [hm] at h
        simp only [Bool.false_eq_true, if_false] at h
        cases ho : b.isOccupiedAt pos with
        | false => rw [ho] at h; exact absurd h (by simp)
        | true =>
          rw [ho] at h
          simp only [Bool.not_true, Bool.false_eq_true, if_false] at h
          obtain ⟨hv', hlen⟩ := ih _ _ _ h
          rw [stepsLeft_step dir pos hd hv] at hlen
          simp only [List.length_append, List.length_singleton] at hlen
          omega

/-! ## Fold lemmas for the `forEach` loops -/

/-- The source's `forEach` that only ever sets a Boolean flag to true is a
disjunction over the list. -/
theorem foldl_or_any {α : Type} (p : α → Bool) :
    ∀ (l : List α) (a : Bool),
      l.foldl (fun v x => v || p x) a = (a || l.any p) := by
  intro l
  induction l with
  | nil => intro a; simp
  | cons x t ih =>
    intro a
    simp only [List.foldl_cons, List.any_cons, ih, Bool.or_assoc]

/-- The source's `forEach` that pushes every element passing a test is a
`filter` of the mapped list. -/
theorem foldl_push {α β : Type} (f : α → β) (q : β → Bool) :
    ∀ (l : List α) (a : List β),
      l.foldl (fun ms x => if q (f x) then ms ++ [f x] else ms) a =
        a ++ (l.map f).filter q := by
  intro l
  induction l with
  | nil => intro a; simp
  | cons x t ih =>
    intro a
    simp only [List.foldl_cons, List.map_cons, List.filter_cons]
    by_cases h : q (f x)
    · rw [if_pos h, if_pos h, ih]; simp
    · rw [if_neg h, if_neg h, ih]

/-- The source's `forEach` that concatenates per-element lists is a
`flatMap`. -/
theorem foldl_append_flat {α β : Type} (g : α → List β) :
    ∀ (l : List α) (a : List β),
      l.foldl (fun acc x => acc ++ g x) a = a ++ l.flatMap g := by
  intro l
  induction l with
  | nil => intro a; simp
  | cons x t ih =>
    intro a
    simp only [List.foldl_cons, List.flatMap_cons, ih, List.append_assoc]

/-- `filter` distributes over `flatMap`. -/
theorem filter_flatMap_eq {α β : Type} (g : α → List β) (q : β → Bool) :
    ∀ l : List α, (l.flatMap g).filter q = l.flatMap fun x => (g x).filter q := by
  intro l
  induction l with
  | nil => rfl
  | cons x t ih => simp only [List.flatMap_cons, List.filter_append, ih]

/-! ## Characterizations of `validMove` and `validMoves` -/

/-- `validMove` holds exactly when the position is on-board, unoccupied,
and some table direction's scan (seeded one step beyond the position with
an empty accumulator) returns a non-null — hence non-empty — list. -/
theorem validMove_iff_exists (b : Board) (pos : Pos) (color : String) :
    b.validMove pos color = true ↔
      Board.isValidPos pos = true ∧ b.isOccupiedAt pos = false ∧
        ∃ d ∈ Board.DIRS, ∃ l,
          positionsToFlip b (pos.1 + d.1, pos.2 + d.2) color d [] = some l ∧
            l ≠ [] := by
  unfold Board.validMove
  cases hv : Board.isValidPos pos with
  | false => simp [hv]
  | true =>
    cases ho : b.isOccupiedAt pos with
    | true => simp [ho]
    | false =>
      simp only [Bool.not_true, Bool.false_eq_true, if_false, if_true,
        Bool.not_false, ho, Bool.true_eq_false, true_and]
      rw [foldl_or_any, Bool.false_or, List.any_eq_true]
      constructor
      · rintro ⟨d, hd, hsome⟩
        rw [Option.isSome_iff_exists] at hsome
        obtain ⟨l, hl⟩ := hsome
        exact ⟨d, hd, l, hl, ptf_some_ne_nil b color d 8 _ _ _ hl⟩
      · rintro ⟨d, hd, l, hl, _⟩
        exact ⟨d, hd, by rw [hl]; rfl⟩

/-- `validMoves` is the row-major filter of the 64 cells by `validMove`. -/
theorem validMoves_eq_filter (b : Board) (color : String) :
    b.validMoves color =
      allPositions.filter fun p => b.validMove p color := by
  unfold Board.validMoves allPositions
  rw [List.foldl_ext _
    (fun moves (i : ℕ) => moves ++
      ((List.range 8).map fun j : ℕ => ((i : ℤ), (j : ℤ))).filter
        (fun p => b.validMove p color))
    _ (fun a i _ => foldl_push (fun j : ℕ => ((i : ℤ), (j : ℤ)))
        (fun p => b.validMove p color) (List.range 8) a)]
  rw [foldl_append_flat, List.nil_append, filter_flatMap_eq]

/-! ## Grid update lemmas -/

/-- Writing a cell either leaves a given cell unchanged or makes it the
written value. -/
theorem cell_setCell_cases (b : Board) (pos : Pos) (v : Option Piece)
    (q : Pos) :
    (b.setCell pos v).cell q = b.cell q ∨ (b.setCell pos v).cell q = v := by
  unfold Board.cell Board.setCell
  by_cases hq : 0 ≤ q.1 ∧ 0 ≤ q.2
  · simp only [if_pos hq]
    by_cases hr : q.1.toNat = pos.1.toNat
    · rw [hr]
      by_cases hlen : pos.1.toNat < b.grid.length
      · rw [List.get?_set_eq_of_lt _ hlen]
        simp only [Option.getD_some]
        by_cases hc : q.2.toNat = pos.2.toNat
        · rw [hc]
          by_cases hclen :
              pos.2.toNat < ((b.grid.get? pos.1.toNat).getD []).length
          · rw [List.get?_set_eq_of_lt _ hclen]
            exact Or.inr rfl
          · rw [List.set_eq_of_length_le (by omega)]
            exact Or.inl rfl
        · rw [List.get?_set_ne _ _ fun h => hc h.symm]
          exact Or.inl rfl
      · rw [List.set_eq_of_length_le (by omega)]
        exact Or.inl rfl
    · rw [List.get?_set_ne _ _ fun h => hr h.symm]
      exact Or.inl rfl
  · rw [if_neg hq, if_neg hq]
    exact Or.inl rfl

/-- Writing one cell does not change any other cell (the write position
having nonnegative coordinates, as every position passed to the write in
`placePiece` does). -/
theorem cell_setCell_ne (b : Board) (pos : Pos) (v : Option Piece) (q : Pos)
    (hpos : 0 ≤ pos.1 ∧ 0 ≤ pos.2) (hne : q ≠ pos) :
    (b.setCell pos v).cell q = b.cell q := by
  unfold Board.cell Board.setCell
  by_cases hq : 0 ≤ q.1 ∧ 0 ≤ q.2
  · simp only [if_pos hq]
    by_cases hr : q.1.toNat = pos.1.toNat
    · have hq1 : q.1 = pos.1 := by omega
      have hq2 : q.2.toNat ≠ pos.2.toNat := by
        have : q.2 ≠ pos.2 := by
          intro h
          exact hne (Prod.ext hq1 h)
        omega
      rw [hr]
      by_cases hlen : pos.1.toNat < b.grid.length
      · rw [List.get?_set_eq_of_lt _ hlen]
        simp only [Option.getD_some]
        rw [List.get?_set_ne _ _ fun h => hq2 h.symm]
      · rw [List.set_eq_of_length_le (by omega)]
    · rw [List.get?_set_ne _ _ fun h => hr h.symm]
  · simp only [if_neg hq]

/-- On a well-formed grid, writing a valid cell stores the value. -/
theorem cell_setCell_valid (b : Board) (pos : Pos) (v : Option Piece)
    (hw : b.Wf) (hv : Board.isValidPos pos = true) :
    (b.setCell pos v).cell pos = v := by
  obtain ⟨hlen, hrows⟩ := hw
  obtain ⟨h1, h2, h3, h4⟩ := (isValidPos_iff pos).mp hv
  have hr : pos.1.toNat < b.grid.length := by omega
  obtain ⟨row, hrow⟩ : ∃ row, b.grid.get? pos.1.toNat = some row := by
    rw [List.get?_eq_get hr]; exact ⟨_, rfl⟩
  have hrowlen : row.length = 8 := hrows row (List.get?_mem hrow)
  have hc : pos.2.toNat < ((b.grid.get? pos.1.toNat).getD []).length := by
    rw [hrow, Option.getD_some, hrowlen]; omega
  unfold Board.cell Board.setCell
  rw [if_pos ⟨h1, h3⟩, List.get?_set_eq_of_lt _ hr]
  simp only [Option.getD_some]
  rw [List.get?_set_eq_of_lt _ hc]
  rfl

/-- An occupied cell lies inside the stored arrays. -/
theorem cell_some_bounds (b : Board) (q : Pos) (p : Piece)
    (h : b.cell q = some p) :
    (0 ≤ q.1 ∧ 0 ≤ q.2) ∧ q.1.toNat < b.grid.length ∧
      q.2.toNat < ((b.grid.get? q.1.toNat).getD []).length := by
  unfold Board.cell at h
  by_cases hq : 0 ≤ q.1 ∧ 0 ≤ q.2
  · rw [if_pos hq] at h
    have hx : ((b.grid.get? q.1.toNat).getD []).get? q.2.toNat
        = some (some p) := by
      cases hy : ((b.grid.get? q.1.toNat).getD []).get? q.2.toNat with
      | none => rw [hy] at h; exact absurd h (by simp)
      | some o => rw [hy] at h; rw [Option.getD_some] at h; rw [h]
    obtain ⟨hc, -⟩ := List.get?_eq_some.mp hx
    have hr : q.1.toNat < b.grid.length := by
      cases hrow : b.grid.get? q.1.toNat with
      | none => rw [hrow] at hx; exact absurd hx (by simp)
      | some row =>
        obtain ⟨hlt, -⟩ := List.get?_eq_some.mp hrow
        exact hlt
    exact ⟨hq, hr, hc⟩
  · rw [if_neg hq] at h
    exact absurd h (by simp)

/-- Flipping the piece of cell `q` toggles exactly that cell's color. -/
theorem cell_flipAt_same (b : Board) (q : Pos) :
    (b.flipAt q).cell q = (b.cell q).map Piece.flip := by
  unfold Board.flipAt
  cases hc : b.cell q with
  | none => exact hc
  | some p =>
    obtain ⟨hq, hr, hcol⟩ := cell_some_bounds b q p hc
    unfold Board.cell Board.setCell
    rw [if_pos hq, List.get?_set_eq_of_lt _ hr]
    simp only [Option.getD_some]
    rw [List.get?_set_eq_of_lt _ hcol]
    rfl

/-- Flipping the piece of one cell leaves every other cell unchanged. -/
theorem cell_flipAt_ne (b : Board) (q q' : Pos) (hne : q' ≠ q) :
    (b.flipAt q).cell q' = b.cell q' := by
  unfold Board.flipAt
  cases hc : b.cell q with
  | none => rfl
  | some p =>
    obtain ⟨hq, -, -⟩ := cell_some_bounds b q p hc
    exact cell_setCell_ne b q (some p.flip) q' hq hne

/-- Cells not in the flip list survive the flip loop unchanged. -/
theorem cell_foldl_flipAt_not_mem :
    ∀ (l : List Pos) (b : Board) (q : Pos), q ∉ l →
      (l.foldl Board.flipAt b).cell q = b.cell q := by
  intro l
  induction l with
  | nil => intro b q _; rfl
  | cons x t ih =>
    intro b q hq
    rw [List.mem_cons, not_or] at hq
    rw [List.foldl_cons, ih _ _ hq.2, cell_flipAt_ne _ _ _ hq.1]

/-- Each cell of a duplicate-free flip list is toggled exactly once by the
flip loop. -/
theorem cell_foldl_flipAt_mem :
    ∀ (l : List Pos) (b : Board) (q : Pos), l.Nodup → q ∈ l →
      (l.foldl Board.flipAt b).cell q = (b.cell q).map Piece.flip := by
  intro l
  induction l with
  | nil => intro b q _ hq; exact absurd hq (by simp)
  | cons x t ih =>
    intro b q hnd hq
    rw [List.nodup_cons] at hnd
    rw [List.foldl_cons]
    rcases List.mem_cons.mp hq with rfl | hqt
    · rw [cell_foldl_flipAt_not_mem t _ q hnd.1, cell_flipAt_same]
    · rw [ih _ _ hnd.2 hqt, cell_flipAt_ne _ _ _ ?_]
      intro h
      rw [h] at hqt
      exact hnd.1 hqt

/-! ## The direction table and disjointness of the rays -/

/-- Two positive multiples of table directions agree only for the same
direction and the same multiplier: distinct rays from one origin are
disjoint. -/
theorem dirs_smul_inj :
    ∀ d ∈ Board.DIRS, ∀ d' ∈ Board.DIRS, ∀ a b : ℕ, 1 ≤ a → 1 ≤ b →
      (a : ℤ) * d.1 = (b : ℤ) * d'.1 → (a : ℤ) * d.2 = (b : ℤ) * d'.2 →
      d = d' ∧ a = b := by
  intro d hd d' hd' a b ha hb h1 h2
  simp only [Board.DIRS, List.mem_cons, List.not_mem_nil, or_false] at hd hd'
  rcases hd with rfl | rfl | rfl | rfl | rfl | rfl | rfl | rfl <;>
    rcases hd' with rfl | rfl | rfl | rfl | rfl | rfl | rfl | rfl <;>
      simp only [Prod.mk.injEq, true_and, and_true] <;>
        simp only [Prod.fst, Prod.snd] at h1 h2 <;> omega

/-- The direction table lists 8 distinct vectors. -/
theorem dirs_nodup : Board.DIRS.Nodup := by decide

/-- The `forEach`-with-concat of `placePiece` is a flat map over the
direction table. -/
theorem flipPositions_eq_flatMap (b : Board) (pos : Pos) (color : String) :
    b.flipPositions pos color = Board.DIRS.flatMap fun dir =>
      (positionsToFlip b (pos.1 + dir.1, pos.2 + dir.2) color dir []).getD [] := by
  unfold Board.flipPositions
  rw [List.foldl_ext _
    (fun acc (dir : Pos) => acc ++
      (positionsToFlip b (pos.1 + dir.1, pos.2 + dir.2) color dir []).getD [])
    _ ?_]
  · rw [foldl_append_flat, List.nil_append]
  · intro a dir _
    cases hl : positionsToFlip b (pos.1 + dir.1, pos.2 + dir.2) color dir []
      with
    | none => simp [hl]
    | some l => simp [hl]

/-- Membership in the combined flip list is membership in one direction's
non-null flip list. -/
theorem mem_flipPositions (b : Board) (pos : Pos) (color : String) (q : Pos) :
    q ∈ b.flipPositions pos color ↔ ∃ d ∈ Board.DIRS, ∃ l,
      positionsToFlip b (pos.1 + d.1, pos.2 + d.2) color d [] = some l ∧
        q ∈ l := by
  rw [flipPositions_eq_flatMap, List.mem_flatMap]
  constructor
  · rintro ⟨d, hd, hq⟩
    have hq2 : q ∈ (positionsToFlip b (pos.1 + d.1, pos.2 + d.2) color d
        []).getD [] := hq
    cases hl : positionsToFlip b (pos.1 + d.1, pos.2 + d.2) color d [] with
    | none => rw [hl] at hq2; exact absurd hq2 (by simp)
    | some l =>
      rw [hl] at hq2
      exact ⟨d, hd, l, hl, hq2⟩
  · rintro ⟨d, hd, l, hl, hq⟩
    refine ⟨d, hd, ?_⟩
    show q ∈ (positionsToFlip b (pos.1 + d.1, pos.2 + d.2) color d []).getD []
    rw [hl]
    exact hq

/-- A direction's flip list seeded one step beyond `pos` holds consecutive
ray positions `pos + (i+1)·dir`. -/
theorem flip_list_ray (b : Board) (pos : Pos) (color : String) (d : Pos)
    (l : List Pos)
    (hl : positionsToFlip b (pos.1 + d.1, pos.2 + d.2) color d [] = some l) :
    ∃ n, l = (List.range n).map
      (fun i : ℕ => (pos.1 + ((i : ℤ) + 1) * d.1,
                     pos.2 + ((i : ℤ) + 1) * d.2)) := by
  obtain ⟨n, hn⟩ := ptf_shape b color d 8 _ _ _ hl
  refine ⟨n, ?_⟩
  rw [hn, List.nil_append]
  apply List.map_congr_left
  intro i _
  simp only [Prod.fst, Prod.snd, Prod.mk.injEq]
  constructor <;> ring

/-- Each entry of a direction's flip list is `pos + k·dir` for some
`k ≥ 1`. -/
theorem mem_flip_list_ray (b : Board) (pos : Pos) (color : String) (d : Pos)
    (l : List Pos)
    (hl : positionsToFlip b (pos.1 + d.1, pos.2 + d.2) color d [] = some l)
    (q : Pos) (hq : q ∈ l) :
    ∃ k : ℕ, 1 ≤ k ∧ q.1 = pos.1 + (k : ℤ) * d.1 ∧
      q.2 = pos.2 + (k : ℤ) * d.2 := by
  obtain ⟨n, hn⟩ := flip_list_ray b pos color d l hl
  rw [hn, List.mem_map] at hq
  obtain ⟨i, -, rfl⟩ := hq
  refine ⟨i + 1, by omega, ?_, ?_⟩ <;> · push_cast; ring

/-- No entry of a direction's flip list is the placed position itself. -/
theorem mem_flip_list_ne_pos (b : Board) (pos : Pos) (color : String)
    (d : Pos) (hd : d ∈ Board.DIRS) (l : List Pos)
    (hl : positionsToFlip b (pos.1 + d.1, pos.2 + d.2) color d [] = some l)
    (q : Pos) (hq : q ∈ l) : q ≠ pos := by
  obtain ⟨k, hk, h1, h2⟩ := mem_flip_list_ray b pos color d l hl q hq
  intro h
  subst h
  have hz : (k : ℤ) * d.1 = 0 ∧ (k : ℤ) * d.2 = 0 := by omega
  simp only [Board.DIRS, List.mem_cons, List.not_mem_nil, or_false] at hd
  rcases hd with rfl | rfl | rfl | rfl | rfl | rfl | rfl | rfl <;>
    simp only [Prod.fst, Prod.snd] at hz <;> omega

/-- The combined flip list has no duplicates: the 8 rays are pairwise
disjoint and each ray visits distinct cells. -/
theorem flipPositions_nodup (b : Board) (pos : Pos) (color : String) :
    (b.flipPositions pos color).Nodup := by
  rw [flipPositions_eq_flatMap, List.nodup_flatMap]
  constructor
  · intro d hd
    cases hl : positionsToFlip b (pos.1 + d.1, pos.2 + d.2) color d [] with
    | none => simp
    | some l =>
      simp only [Option.getD_some]
      obtain ⟨n, hn⟩ := flip_list_ray b pos color d l hl
      rw [hn]
      refine List.Nodup.map ?_ (List.nodup_range n)
      intro i j hij
      simp only [Prod.mk.injEq] at hij
      obtain ⟨hx, hy⟩ := hij
      have h1 : ((i : ℤ) + 1) * d.1 = ((j : ℤ) + 1) * d.1 := by omega
      have h2 : ((i : ℤ) + 1) * d.2 = ((j : ℤ) + 1) * d.2 := by omega
      have := dirs_smul_inj d hd d hd (i + 1) (j + 1) (by omega) (by omega)
        (by push_cast; omega) (by push_cast; omega)
      omega
  · apply List.Nodup.pairwise_of_forall_ne dirs_nodup
    intro d hd d' hd' hne
    intro q hq hq'
    have hq2 : q ∈ (positionsToFlip b (pos.1 + d.1, pos.2 + d.2) color d
        []).getD [] := hq
    have hq2' : q ∈ (positionsToFlip b (pos.1 + d'.1, pos.2 + d'.2) color d'
        []).getD [] := hq'
    rcases hl : positionsToFlip b (pos.1 + d.1, pos.2 + d.2) color d [] with
      - | l
    · rw [hl] at hq2; exact absurd hq2 (by simp)
    rcases hl' : positionsToFlip b (pos.1 + d'.1, pos.2 + d'.2) color d' []
      with - | l'
    · rw [hl'] at hq2'; exact absurd hq2' (by simp)
    rw [hl] at hq2
    rw [hl'] at hq2'
    simp only [Option.getD_some] at hq2 hq2'
    obtain ⟨k, hk, h1, h2⟩ := mem_flip_list_ray b pos color d l hl q hq2
    obtain ⟨k', hk', h1', h2'⟩ :=
      mem_flip_list_ray b pos color d' l' hl' q hq2'
    have := dirs_smul_inj d hd d' hd' k k' hk hk' (by omega) (by omega)
    exact hne this.1

/-! ## Occupancy monotonicity and grid shape preservation -/

/-- Writing a piece never empties a cell. -/
theorem isSome_cell_setCell (b : Board) (pos : Pos) (pc : Piece) (q : Pos)
    (h : (b.cell q).isSome = true) :
    ((b.setCell pos (some pc)).cell q).isSome = true := by
  rcases cell_setCell_cases b pos (some pc) q with hc | hc <;> rw [hc]
  · exact h
  · rfl

/-- A flip never empties a cell. -/
theorem isSome_cell_flipAt (b : Board) (x q : Pos)
    (h : (b.cell q).isSome = true) :
    ((b.flipAt x).cell q).isSome = true := by
  unfold Board.flipAt
  cases hc : b.cell x with
  | none => exact h
  | some p => exact isSome_cell_setCell b x p.flip q h

/-- The flip loop never empties a cell. -/
theorem isSome_cell_foldl_flipAt :
    ∀ (l : List Pos) (b : Board) (q : Pos), (b.cell q).isSome = true →
      ((l.foldl Board.flipAt b).cell q).isSome = true := by
  intro l
  induction l with
  | nil => intro b q h; exact h
  | cons x t ih =>
    intro b q h
    rw [List.foldl_cons]
    exact ih _ _ (isSome_cell_flipAt b x q h)

/-- Writing a cell preserves the 8×8 grid shape. -/
theorem wf_setCell (b : Board) (pos : Pos) (v : Option Piece) (hw : b.Wf) :
    (b.setCell pos v).Wf := by
  obtain ⟨hlen, hrows⟩ := hw
  unfold Board.setCell Board.Wf
  by_cases hr : pos.1.toNat < b.grid.length
  · refine ⟨by rw [List.length_set]; exact hlen, ?_⟩
    intro row hrow
    rcases List.mem_or_eq_of_mem_set hrow with h | h
    · exact hrows row h
    · subst h
      rw [List.length_set]
      obtain ⟨row0, hrow0⟩ : ∃ r0, b.grid.get? pos.1.toNat = some r0 := by
        rw [List.get?_eq_get hr]; exact ⟨_, rfl⟩
      rw [hrow0, Option.getD_some]
      exact hrows row0 (List.get?_mem hrow0)
  · rw [List.set_eq_of_length_le (by omega)]
    exact ⟨hlen, hrows⟩

/-- A flip preserves the 8×8 grid shape. -/
theorem wf_flipAt (b : Board) (q : Pos) (hw : b.Wf) : (b.flipAt q).Wf := by
  unfold Board.flipAt
  cases b.cell q with
  | none => exact hw
  | some p => exact wf_setCell b q (some p.flip) hw

/-- The flip loop preserves the 8×8 grid shape. -/
theorem wf_foldl_flipAt :
    ∀ (l : List Pos) (b : Board), b.Wf → (l.foldl Board.flipAt b).Wf := by
  intro l
  induction l with
  | nil => intro b hw; exact hw
  | cons x t ih =>
    intro b hw
    rw [List.foldl_cons]
    exact ih _ (wf_flipAt b x hw)

/-! ## `placePiece` -/

/-- A rejected `placePiece` throws `'Invalid Move'` and returns the board
untouched: the check precedes every write. -/
theorem placePiece_invalid_eq (b : Board) (pos : Pos) (color : String)
    (h : b.validMove pos color = false) :
    b.placePiece pos color = (Except.error "Invalid Move", b) := by
  unfold Board.placePiece
  rw [h]
  rfl

/-- An accepted `placePiece` writes the new piece and then runs the flip
loop over the combined flip list. -/
theorem placePiece_valid_eq (b : Board) (pos : Pos) (color : String)
    (h : b.validMove pos color = true) :
    b.placePiece pos color =
      (Except.ok (),
        ((b.setCell pos (some ⟨color⟩)).flipPositions pos color).foldl
          Board.flipAt (b.setCell pos (some ⟨color⟩))) := by
  unfold Board.placePiece
  rw [h]
  rfl

/-- A valid move's position is on-board. -/
theorem validMove_isValidPos (b : Board) (pos : Pos) (color : String)
    (h : b.validMove pos color = true) : Board.isValidPos pos = true :=
  ((validMove_iff_exists b pos color).mp h).1

/-- A valid move's position is unoccupied. -/
theorem validMove_unoccupied (b : Board) (pos : Pos) (color : String)
    (h : b.validMove pos color = true) : b.isOccupiedAt pos = false :=
  ((validMove_iff_exists b pos color).mp h).2.1

/-- A combined flip list never contains the placed position. -/
theorem mem_flipPositions_ne_pos (b : Board) (pos : Pos) (color : String)
    (q : Pos) (h : q ∈ b.flipPositions pos color) : q ≠ pos := by
  rw [mem_flipPositions] at h
  obtain ⟨d, hd, l, hl, hq⟩ := h
  exact mem_flip_list_ne_pos b pos color d hd l hl q hq

/-! ## State-threaded translations of the query operations

Each definition threads the board through the statements of the source
method in order; a statement that does not assign to `this.grid` hands on
the board it received.  The theorems below prove that these translations
return the board unchanged. -/

/-- `getPiece`, state-threaded. -/
def Board.getPieceS (b : Board) (pos : Pos) :
    Except String (Option Piece) × Board :=
  if !(Board.isValidPos pos) then (Except.error "Not valid pos!", b)
  else (Except.ok (b.cell pos), b)

/-- `isValidPos`, state-threaded (it reads only its argument). -/
def Board.isValidPosS (b : Board) (pos : Pos) : Bool × Board :=
  (Board.isValidPos pos, b)

/-- `isMine`, state-threaded: two `getPiece` calls, the error of either
one propagating.  (The `ok none` case of the second call cannot occur:
`getPieceS` is deterministic and the board is not written in between.) -/
def Board.isMineS (b : Board) (pos : Pos) (color : String) :
    Except String Bool × Board :=
  match b.getPieceS pos with
  | (Except.error e, b1) => (Except.error e, b1)
  | (Except.ok none, b1) => (Except.ok false, b1)
  | (Except.ok (some _), b1) =>
    match b1.getPieceS pos with
    | (Except.error e, b2) => (Except.error e, b2)
    | (Except.ok none, b2) => (Except.ok false, b2)
    | (Except.ok (some p), b2) => (Except.ok (p.color == color), b2)

/-- `isOccupied`, state-threaded. -/
def Board.isOccupiedS (b : Board) (pos : Pos) :
    Except String Bool × Board :=
  match b.getPieceS pos with
  | (Except.error e, b1) => (Except.error e, b1)
  | (Except.ok p, b1) => (Except.ok p.isSome, b1)

/-- `_positionsToFlip`, state-threaded through the recursion. -/
def positionsToFlipS :
    Nat → Board → Pos → String → Pos → List Pos →
      Option (List Pos) × Board
  | 0, b, _, _, _, _ => (none, b)
  | fuel + 1, b, pos, color, dir, acc =>
    if !(Board.isValidPos pos) then (none, b)
    else if b.isMineAt pos color then
      (if acc = [] then (none, b) else (some acc, b))
    else if !(b.isOccupiedAt pos) then (none, b)
    else positionsToFlipS fuel b (pos.1 + dir.1, pos.2 + dir.2) color dir
      (acc ++ [pos])

/-- `validMove`, state-threaded through the direction loop. -/
def Board.validMoveS (b : Board) (pos : Pos) (color : String) :
    Bool × Board :=
  if !(Board.isValidPos pos) then (false, b)
  else if b.isOccupiedAt pos then (false, b)
  else
    Board.DIRS.foldl (fun acc dir =>
      let r := positionsToFlipS 8 acc.2 (pos.1 + dir.1, pos.2 + dir.2)
        color dir []
      (acc.1 || r.1.isSome, r.2)) (false, b)

/-- `validMoves`, state-threaded through the double loop. -/
def Board.validMovesS (b : Board) (color : String) : List Pos × Board :=
  (List.range 8).foldl (fun acc (i : ℕ) =>
    (List.range 8).foldl (fun acc (j : ℕ) =>
      let r := acc.2.validMoveS ((i : ℤ), (j : ℤ)) color
      (if r.1 then acc.1 ++ [((i : ℤ), (j : ℤ))] else acc.1, r.2)) acc)
    ([], b)

/-- `hasMove`, state-threaded. -/
def Board.hasMoveS (b : Board) (color : String) : Bool × Board :=
  let r := b.validMovesS color
  (r.1.length != 0, r.2)

/-- `isOver`, state-threaded: two `hasMove` calls in sequence. -/
def Board.isOverS (b : Board) : Bool × Board :=
  let w := b.hasMoveS "white"
  let bl := w.2.hasMoveS "black"
  (!w.1 && !bl.1, bl.2)

theorem getPieceS_snd (b : Board) (pos : Pos) : (b.getPieceS pos).2 = b := by
  unfold Board.getPieceS
  split <;> rfl

theorem isValidPosS_snd (b : Board) (pos : Pos) :
    (b.isValidPosS pos).2 = b := rfl

theorem isMineS_snd (b : Board) (pos : Pos) (color : String) :
    (b.isMineS pos color).2 = b := by
  unfold Board.isMineS Board.getPieceS
  by_cases hv : Board.isValidPos pos
  · simp only [hv, Bool.not_true, Bool.false_eq_true, if_false]
    cases hc : b.cell pos with
    | none => rfl
    | some p => simp only [hc]
  · simp only [Bool.not_eq_true] at hv
    simp only [hv, Bool.not_false, if_true]

theorem isOccupiedS_snd (b : Board) (pos : Pos) :
    (b.isOccupiedS pos).2 = b := by
  unfold Board.isOccupiedS Board.getPieceS
  by_cases hv : Board.isValidPos pos
  · simp only [hv, Bool.not_true, Bool.false_eq_true, if_false]
  · simp only [Bool.not_eq_true] at hv
    simp only [hv, Bool.not_false, if_true]

theorem ptfS_snd :
    ∀ (fuel : Nat) (b : Board) (pos : Pos) (color : String) (dir : Pos)
      (acc : List Pos), (positionsToFlipS fuel b pos color dir acc).2 = b := by
  intro fuel
  induction fuel with
  | zero => intro b pos color dir acc; rfl
  | succ fuel ih =>
    intro b pos color dir acc
    show (if !(Board.isValidPos pos) then (none, b)
      else if b.isMineAt pos color then
        (if acc = [] then (none, b) else (some acc, b))
      else if !(b.isOccupiedAt pos) then (none, b)
      else positionsToFlipS fuel b (pos.1 + dir.1, pos.2 + dir.2) color dir
        (acc ++ [pos])).2 = b
    split_ifs <;> first | rfl | apply ih

/-- A fold whose step keeps the board component fixed keeps it fixed. -/
theorem foldl_snd_const {α β : Type} (step : β × Board → α → β × Board)
    (hstep : ∀ acc x, (step acc x).2 = acc.2) :
    ∀ (l : List α) (a : β × Board), (l.foldl step a).2 = a.2 := by
  intro l
  induction l with
  | nil => intro a; rfl
  | cons x t ih =>
    intro a
    rw [List.foldl_cons, ih, hstep]

theorem validMoveS_snd (b : Board) (pos : Pos) (color : String) :
    (b.validMoveS pos color).2 = b := by
  unfold Board.validMoveS
  split_ifs
  · rfl
  · rfl
  · exact foldl_snd_const
      (fun acc (dir : Pos) =>
        let r := positionsToFlipS 8 acc.2 (pos.1 + dir.1, pos.2 + dir.2)
          color dir []
        (acc.1 || r.1.isSome, r.2))
      (fun acc dir => ptfS_snd 8 acc.2 _ _ _ _) Board.DIRS (false, b)

theorem validMovesS_snd (b : Board) (color : String) :
    (b.validMovesS color).2 = b := by
  unfold Board.validMovesS
  exact foldl_snd_const
    (fun acc (i : ℕ) =>
      (List.range 8).foldl (fun acc (j : ℕ) =>
        let r := acc.2.validMoveS ((i : ℤ), (j : ℤ)) color
        (if r.1 then acc.1 ++ [((i : ℤ), (j : ℤ))] else acc.1, r.2)) acc)
    (fun acc i => foldl_snd_const
      (fun acc (j : ℕ) =>
        let r := acc.2.validMoveS ((i : ℤ), (j : ℤ)) color
        (if r.1 then acc.1 ++ [((i : ℤ), (j : ℤ))] else acc.1, r.2))
      (fun acc2 j => validMoveS_snd acc2.2 _ _) (List.range 8) acc)
    (List.range 8) ([], b)

theorem hasMoveS_snd (b : Board) (color : String) :
    (b.hasMoveS color).2 = b := by
  simp only [Board.hasMoveS]
  exact validMovesS_snd b color

theorem isOverS_snd (b : Board) : b.isOverS.2 = b := by
  unfold Board.isOverS
  rw [hasMoveS_snd, hasMoveS_snd]

/-! ## Sequences of Board operations -/

/-- A call into the Board interface, with the arguments it takes. -/
inductive Op where
  | place (pos : Pos) (color : String)
  | getPiece (pos : Pos)
  | isValidPos (pos : Pos)
  | isMine (pos : Pos) (color : String)
  | isOccupied (pos : Pos)
  | hasMove (color : String)
  | isOver
  | validMove (pos : Pos) (color : String)
  | validMoves (color : String)
  | print

/-- The board state after one interface call (whether it returns or
throws). -/
def Board.applyOp (b : Board) : Op → Board
  | Op.place pos color => (b.placePiece pos color).2
  | Op.getPiece pos => (b.getPieceS pos).2
  | Op.isValidPos pos => (b.isValidPosS pos).2
  | Op.isMine pos color => (b.isMineS pos color).2
  | Op.isOccupied pos => (b.isOccupiedS pos).2
  | Op.hasMove color => (b.hasMoveS color).2
  | Op.isOver => b.isOverS.2
  | Op.validMove pos color => (b.validMoveS pos color).2
  | Op.validMoves color => (b.validMovesS color).2
  | Op.print => b

/-- The board state after a sequence of interface calls. -/
def Board.run (b : Board) (ops : List Op) : Board :=
  ops.foldl Board.applyOp b

theorem wf_placePiece (b : Board) (pos : Pos) (color : String)
    (hw : b.Wf) : (b.placePiece pos color).2.Wf := by
  cases h : b.validMove pos color with
  | false => rw [placePiece_invalid_eq b pos color h]; exact hw
  | true =>
    rw [placePiece_valid_eq b pos color h]
    exact wf_foldl_flipAt _ _ (wf_setCell b pos _ hw)

theorem isOccupiedAt_placePiece (b : Board) (pos : Pos) (color : String)
    (q : Pos) (h : b.isOccupiedAt q = true) :
    (b.placePiece pos color).2.isOccupiedAt q = true := by
  cases hv : b.validMove pos color with
  | false => rw [placePiece_invalid_eq b pos color hv]; exact h
  | true =>
    rw [placePiece_valid_eq b pos color hv]
    unfold Board.isOccupiedAt at h ⊢
    exact isSome_cell_foldl_flipAt _ _ _
      (isSome_cell_setCell b pos ⟨color⟩ q h)

theorem wf_applyOp (b : Board) (o : Op) (hw : b.Wf) : (b.applyOp o).Wf := by
  cases o with
  | place pos color => exact wf_placePiece b pos color hw
  | getPiece pos =>
    show ((b.getPieceS pos).2).Wf
    rw [getPieceS_snd]; exact hw
  | isValidPos pos => exact hw
  | isMine pos color =>
    show ((b.isMineS pos color).2).Wf
    rw [isMineS_snd]; exact hw
  | isOccupied pos =>
    show ((b.isOccupiedS pos).2).Wf
    rw [isOccupiedS_snd]; exact hw
  | hasMove color =>
    show ((b.hasMoveS color).2).Wf
    rw [hasMoveS_snd]; exact hw
  | isOver =>
    show (b.isOverS.2).Wf
    rw [isOverS_snd]; exact hw
  | validMove pos color =>
    show ((b.validMoveS pos color).2).Wf
    rw [validMoveS_snd]; exact hw
  | validMoves color =>
    show ((b.validMovesS color).2).Wf
    rw [validMovesS_snd]; exact hw
  | print => exact hw

theorem isOccupiedAt_applyOp (b : Board) (o : Op) (q : Pos)
    (h : b.isOccupiedAt q = true) : (b.applyOp o).isOccupiedAt q = true := by
  cases o with
  | place pos color => exact isOccupiedAt_placePiece b pos color q h
  | getPiece pos =>
    show ((b.getPieceS pos).2).isOccupiedAt q = true
    rw [getPieceS_snd]; exact h
  | isValidPos pos => exact h
  | isMine pos color =>
    show ((b.isMineS pos color).2).isOccupiedAt q = true
    rw [isMineS_snd]; exact h
  | isOccupied pos =>
    show ((b.isOccupiedS pos).2).isOccupiedAt q = true
    rw [isOccupiedS_snd]; exact h
  | hasMove color =>
    show ((b.hasMoveS color).2).isOccupiedAt q = true
    rw [hasMoveS_snd]; exact h
  | isOver =>
    show (b.isOverS.2).isOccupiedAt q = true
    rw [isOverS_snd]; exact h
  | validMove pos color =>
    show ((b.validMoveS pos color).2).isOccupiedAt q = true
    rw [validMoveS_snd]; exact h
  | validMoves color =>
    show ((b.validMovesS color).2).isOccupiedAt q = true
    rw [validMovesS_snd]; exact h
  | print => exact h

theorem wf_run : ∀ (ops : List Op) (b : Board), b.Wf → (b.run ops).Wf := by
  intro ops
  induction ops with
  | nil => intro b hw; exact hw
  | cons o t ih =>
    intro b hw
    exact ih _ (wf_applyOp b o hw)

theorem isOccupiedAt_run :
    ∀ (ops : List Op) (b : Board) (q : Pos), b.isOccupiedAt q = true →
      (b.run ops).isOccupiedAt q = true := by
  intro ops
  induction ops with
  | nil => intro b q h; exact h
  | cons o t ih =>
    intro b q h
    exact ih _ _ (isOccupiedAt_applyOp b o q h)

theorem run_append (b : Board) (ops ops' : List Op) :
    b.run (ops ++ ops') = (b.run ops).run ops' :=
  List.foldl_append _ _ _ _

/-- The initial board is well-formed. -/
theorem wf_init : Board.init.Wf := by decide

/-! ## The claims -/

/-- C1, counterexample: at the invalid position [-1,0] on the initial
board, `isMine` does not return `false` as claimed; it propagates the
position-validity error raised by `getPiece`. -/
theorem isMine_invalid_cex :
    Board.init.isMine (-1, 0) "black" = Except.error "Not valid pos!" ∧
      Board.init.isMine (-1, 0) "black" ≠ Except.ok false := by
  constructor
  · rfl
  · intro h
    rw [show Board.init.isMine (-1, 0) "black"
      = Except.error "Not valid pos!" from rfl] at h
    exact Except.noConfusion h

/-- C1 (amended): for every position outside [0,7]×[0,7] in either
coordinate and every color, `isMine` fails with the position-validity
error raised by `getPiece` (there is no catch in `isMine`), rather than
returning `false`. -/
theorem isMine_invalid_propagates (b : Board) (pos : Pos) (color : String)
    (h : Board.isValidPos pos = false) :
    b.isMine pos color = Except.error "Not valid pos!" := by
  unfold Board.isMine Board.getPiece
  rw [h]
  rfl

/-- Witness for the amended C1 at the concrete invalid position [8,0]. -/
theorem isMine_invalid_propagates_witness :
    Board.isValidPos ((8 : ℤ), (0 : ℤ)) = false ∧
      Board.init.isMine (8, 0) "black" = Except.error "Not valid pos!" :=
  ⟨by decide, isMine_invalid_propagates Board.init (8, 0) "black" (by decide)⟩

/-- C2: whenever `validMove` rejects a position/color pair, `placePiece`
fails with the Invalid Move error and the grid is exactly as before the
call — the validity check runs strictly before any grid write. -/
theorem placePiece_invalid_move (b : Board) (pos : Pos) (color : String)
    (h : b.validMove pos color = false) :
    (b.placePiece pos color).1 = Except.error "Invalid Move" ∧
      (b.placePiece pos color).2 = b := by
  rw [placePiece_invalid_eq b pos color h]
  exact ⟨rfl, rfl⟩

/-- Witness for C2: the always-invalid move [0,0]/"black" on the initial
board fails and mutates nothing. -/
theorem placePiece_invalid_move_witness :
    Board.init.validMove (0, 0) "black" = false ∧
      (Board.init.placePiece (0, 0) "black").1 =
        Except.error "Invalid Move" ∧
      (Board.init.placePiece (0, 0) "black").2 = Board.init :=
  ⟨by decide, placePiece_invalid_move Board.init (0, 0) "black" (by decide)⟩

/-- C3: an accepted `placePiece` succeeds, stores a new piece of the given
color at `pos`, toggles the color of exactly the (occupied) cells of the
combined flip list — the concatenation of the non-null flip lists the 8
directions compute independently, seeded one step beyond `pos` — and
changes no other cell.  Concretely, `placePiece([2,3],"black")` on the
initial board makes [2,3] black, flips [3,3] from white to black, and
leaves every other cell unchanged. -/
theorem placePiece_valid_spec (b : Board) (pos : Pos) (color : String)
    (hw : b.Wf) (h : b.validMove pos color = true) :
    (b.placePiece pos color).1 = Except.ok () ∧
    (b.placePiece pos color).2.cell pos = some ⟨color⟩ ∧
    (∀ q ∈ (b.setCell pos (some ⟨color⟩)).flipPositions pos color,
      (b.placePiece pos color).2.cell q = (b.cell q).map Piece.flip ∧
        (b.cell q).isSome = true) ∧
    (∀ q, q ≠ pos →
      q ∉ (b.setCell pos (some ⟨color⟩)).flipPositions pos color →
      (b.placePiece pos color).2.cell q = b.cell q) ∧
    ((Board.init.placePiece (2, 3) "black").2.cell (2, 3) =
        some ⟨"black"⟩ ∧
      Board.init.cell (3, 3) = some ⟨"white"⟩ ∧
      (Board.init.placePiece (2, 3) "black").2.cell (3, 3) =
        some ⟨"black"⟩ ∧
      ∀ q ∈ allPositions, q ≠ (2, 3) → q ≠ (3, 3) →
        (Board.init.placePiece (2, 3) "black").2.cell q =
          Board.init.cell q) := by
  have hvp := validMove_isValidPos b pos color h
  obtain ⟨hp1, -, hp3, -⟩ := (isValidPos_iff pos).mp hvp
  rw [placePiece_valid_eq b pos color h]
  refine ⟨rfl, ?_, ?_, ?_, ?_, ?_, ?_, ?_⟩
  · rw [cell_foldl_flipAt_not_mem _ _ pos
      (fun hmem => mem_flipPositions_ne_pos _ pos color pos hmem rfl)]
    exact cell_setCell_valid b pos (some ⟨color⟩) hw hvp
  · intro q hq
    have hqne := mem_flipPositions_ne_pos _ pos color q hq
    have hcell : (b.setCell pos (some ⟨color⟩)).cell q = b.cell q :=
      cell_setCell_ne b pos (some ⟨color⟩) q ⟨hp1, hp3⟩ hqne
    constructor
    · rw [cell_foldl_flipAt_mem _ _ q
        (flipPositions_nodup (b.setCell pos (some ⟨color⟩)) pos color) hq,
        hcell]
    · obtain ⟨d, hd, l, hl, hql⟩ := (mem_flipPositions _ pos color q).mp hq
      rcases ptf_mem (b.setCell pos (some ⟨color⟩)) color d 8 _ _ l hl q hql
        with hin | ⟨hocc, -⟩
      · exact absurd hin (by simp)
      · unfold Board.isOccupiedAt at hocc
        rw [hcell] at hocc
        exact hocc
  · intro q hqpos hqflips
    rw [cell_foldl_flipAt_not_mem _ _ q hqflips]
    exact cell_setCell_ne b pos (some ⟨color⟩) q ⟨hp1, hp3⟩ hqpos
  · decide
  · decide
  · decide
  · decide

/-- Witness for C3: the concrete accepted move [2,3]/"black" on the
initial board. -/
theorem placePiece_valid_spec_witness :
    Board.init.Wf ∧ Board.init.validMove (2, 3) "black" = true ∧
      (Board.init.placePiece (2, 3) "black").1 = Except.ok () :=
  ⟨by decide, by decide,
    (placePiece_valid_spec Board.init (2, 3) "black" (by decide)
      (by decide)).1⟩

/-- C4: `validMove(pos,color)` holds iff `pos` is on-board, unoccupied,
and at least one of the 8 directions yields a non-empty flip list; on the
initial board [2,3]/"black" is valid and [0,0]/"black" is not. -/
theorem validMove_spec (b : Board) (pos : Pos) (color : String) :
    (b.validMove pos color = true ↔
      Board.isValidPos pos = true ∧ b.isOccupiedAt pos = false ∧
        ∃ d ∈ Board.DIRS, ∃ l,
          positionsToFlip b (pos.1 + d.1, pos.2 + d.2) color d [] =
            some l ∧ l ≠ []) ∧
      Board.init.validMove (2, 3) "black" = true ∧
      Board.init.validMove (0, 0) "black" = false :=
  ⟨validMove_iff_exists b pos color, by decide, by decide⟩

/-- C5: one step of the flip-scan, exactly as the claim lists the cases:
null off-board; at a mover-colored piece, null when the accumulator is
empty and the accumulator otherwise; null at an unoccupied cell;
otherwise the opposite-colored piece (identified by the cell owning it)
is appended and the scan recurses one step further along the
direction. -/
theorem positionsToFlip_step (b : Board) (pos : Pos) (color : String)
    (dir : Pos) (acc : List Pos) (hd : dir ∈ Board.DIRS) :
    positionsToFlip b pos color dir acc =
      if !(Board.isValidPos pos) then none
      else if b.isMineAt pos color then
        (if acc = [] then none else some acc)
      else if !(b.isOccupiedAt pos) then none
      else positionsToFlip b (pos.1 + dir.1, pos.2 + dir.2) color dir
        (acc ++ [pos]) := by
  conv_lhs => rw [show positionsToFlip b pos color dir acc =
    positionsToFlipFuel b 9 pos color dir acc from
      (ptf_stable b color dir pos acc 9 hd (by omega)).symm]
  rw [ptf_succ]
  rfl

/-- Witness for C5 at the occupied cell [3,3] of the initial board. -/
theorem positionsToFlip_step_witness :
    ((0 : ℤ), (1 : ℤ)) ∈ Board.DIRS ∧
      positionsToFlip Board.init (3, 3) "black" ((0 : ℤ), (1 : ℤ)) [] =
        (if !(Board.isValidPos ((3 : ℤ), (3 : ℤ))) then none
         else if Board.init.isMineAt (3, 3) "black" then
           (if ([] : List Pos) = [] then none else some [])
         else if !(Board.init.isOccupiedAt (3, 3)) then none
         else positionsToFlip Board.init
           (((3 : ℤ), (3 : ℤ)).1 + ((0 : ℤ), (1 : ℤ)).1,
            ((3 : ℤ), (3 : ℤ)).2 + ((0 : ℤ), (1 : ℤ)).2) "black"
           ((0 : ℤ), (1 : ℤ)) ([] ++ [((3 : ℤ), (3 : ℤ))])) :=
  ⟨by decide,
    positionsToFlip_step Board.init (3, 3) "black" ((0 : ℤ), (1 : ℤ)) []
      (by decide)⟩

/-- C6: `validMoves` returns exactly the positions of the 64 cells that
satisfy `validMove`, in strict row-major order (the row-major filter), and
its length is the count of positions where `validMove` independently
holds. -/
theorem validMoves_spec (b : Board) (color : String) :
    b.validMoves color =
      allPositions.filter (fun p => b.validMove p color) ∧
      (b.validMoves color).length =
        allPositions.countP (fun p => b.validMove p color) := by
  refine ⟨validMoves_eq_filter b color, ?_⟩
  rw [validMoves_eq_filter b color, List.countP_eq_length_filter]

/-- C7: the fresh board has white pieces at [3,3] and [4,4], black pieces
at [3,4] and [4,3], exactly those four cells occupied (all other 60 cells
empty), and the game is not over. -/
theorem init_board_spec :
    Board.init.getPiece (3, 3) = Except.ok (some ⟨"white"⟩) ∧
    Board.init.getPiece (4, 4) = Except.ok (some ⟨"white"⟩) ∧
    Board.init.getPiece (3, 4) = Except.ok (some ⟨"black"⟩) ∧
    Board.init.getPiece (4, 3) = Except.ok (some ⟨"black"⟩) ∧
    allPositions.filter (fun p => (Board.init.cell p).isSome) =
      [(3, 3), (3, 4), (4, 3), (4, 4)] ∧
    Board.init.isOver = false := by
  exact ⟨rfl, rfl, rfl, rfl, by decide, by decide⟩

/-- C8: along every sequence of Board operations from a fresh board the
grid stays 8 rows of 8 cells, and a cell that is occupied stays occupied
through any further operations: a placed piece is never removed. -/
theorem board_invariants (ops ops' : List Op) (q : Pos) :
    (Board.init.run ops).Wf ∧
      ((Board.init.run ops).isOccupiedAt q = true →
        (Board.init.run (ops ++ ops')).isOccupiedAt q = true) := by
  refine ⟨wf_run ops Board.init wf_init, fun h => ?_⟩
  rw [run_append]
  exact isOccupiedAt_run ops' _ q h

/-- Witness for C8: after placing at [2,3] the cell is occupied and stays
occupied across a further call. -/
theorem board_invariants_witness :
    (Board.init.run [Op.place (2, 3) "black"]).Wf ∧
      (Board.init.run ([Op.place (2, 3) "black"] ++ [Op.isOver])
        ).isOccupiedAt (2, 3) = true := by
  refine ⟨(board_invariants [Op.place (2, 3) "black"] [Op.isOver]
    (2, 3)).1, ?_⟩
  exact (board_invariants [Op.place (2, 3) "black"] [Op.isOver] (2, 3)).2
    (by decide)

/-- C9: the recursive flip-scan terminates — all fuels from 8 up compute
the same value, the recursion's fixed point — and a ray cast from one
step beyond an on-board position in a table direction returns at most 6
flips. -/
theorem ray_termination_and_bound (b : Board) (pos : Pos) (color : String)
    (dir : Pos) (acc : List Pos) (l : List Pos) (hd : dir ∈ Board.DIRS)
    (hv : Board.isValidPos pos = true) :
    (∀ f, 8 ≤ f → positionsToFlipFuel b f pos color dir acc =
      positionsToFlip b pos color dir acc) ∧
    (positionsToFlip b (pos.1 + dir.1, pos.2 + dir.2) color dir [] =
        some l → l.length ≤ 6) := by
  constructor
  · intro f hf
    exact ptf_stable b color dir pos acc f hd hf
  · intro hl
    obtain ⟨hv', hlen⟩ := ptf_length b color dir hd 8 _ [] l hl
    rw [stepsLeft_step dir pos hd hv] at hlen
    have := stepsLeft_of_valid dir pos hv
    simp only [List.length_nil] at hlen
    omega

/-- Witness for C9: the southward ray of the move [2,3]/"black" on the
initial board flips exactly [3,3], a list of length 1 ≤ 6, and fuel 12
agrees with the scan's value. -/
theorem ray_termination_and_bound_witness :
    ((1 : ℤ), (0 : ℤ)) ∈ Board.DIRS ∧
    Board.isValidPos ((2 : ℤ), (3 : ℤ)) = true ∧
    positionsToFlipFuel Board.init 12 ((2 : ℤ), (3 : ℤ)) "black"
      ((1 : ℤ), (0 : ℤ)) [] =
      positionsToFlip Board.init ((2 : ℤ), (3 : ℤ)) "black"
        ((1 : ℤ), (0 : ℤ)) [] ∧
    positionsToFlip Board.init
      (((2 : ℤ), (3 : ℤ)).1 + ((1 : ℤ), (0 : ℤ)).1,
       ((2 : ℤ), (3 : ℤ)).2 + ((1 : ℤ), (0 : ℤ)).2) "black"
      ((1 : ℤ), (0 : ℤ)) [] = some [((3 : ℤ), (3 : ℤ))] ∧
    ([((3 : ℤ), (3 : ℤ))] : List Pos).length ≤ 6 := by
  refine ⟨by decide, by decide, ?_, by decide, ?_⟩
  · exact (ray_termination_and_bound Board.init (2, 3) "black"
      ((1 : ℤ), (0 : ℤ)) [] [((3 : ℤ), (3 : ℤ))] (by decide)
      (by decide)).1 12 (by omega)
  · exact (ray_termination_and_bound Board.init (2, 3) "black"
      ((1 : ℤ), (0 : ℤ)) [] [((3 : ℤ), (3 : ℤ))] (by decide)
      (by decide)).2 (by decide)

/-- C10: none of the query operations modifies the board: the
state-threaded translations of `getPiece`, `isValidPos`, `isOccupied`,
`isMine`, the ray scan of `validMove`, `validMove`, `validMoves`,
`hasMove` and `isOver` all return the board they were given, whether the
call returns a value or fails. -/
theorem queries_preserve_board (b : Board) (pos : Pos) (color : String) :
    (b.getPieceS pos).2 = b ∧
    (b.isValidPosS pos).2 = b ∧
    (b.isOccupiedS pos).2 = b ∧
    (b.isMineS pos color).2 = b ∧
    (∀ fuel dir acc, (positionsToFlipS fuel b pos color dir acc).2 = b) ∧
    (b.validMoveS pos color).2 = b ∧
    (b.validMovesS color).2 = b ∧
    (b.hasMoveS color).2 = b ∧
    b.isOverS.2 = b :=
  ⟨getPieceS_snd b pos, isValidPosS_snd b pos, isOccupiedS_snd b pos,
    isMineS_snd b pos color,
    fun fuel dir acc => ptfS_snd fuel b pos color dir acc,
    validMoveS_snd b pos color, validMovesS_snd b color,
    hasMoveS_snd b color, isOverS_snd b⟩

end Reversi
